import Mathlib

/-!
Verification of the lucky-draw sampler (`luckydraw_web.py`).

The embedding below translates the Python source into Lean:

* `PRIZES` and `DEFAULT_WEIGHTS` are the module-level constant lists.
* Python floats are modelled as rationals (`ℚ`); the claims under study
  concern comparisons, list manipulation and control flow, all of which
  the exact arithmetic reproduces.
* The mutable `random.Random` instance is modelled as an `RNG`: a stream
  of outputs indexed by a call counter `t` that the sampler threads
  through its loops (one stream entry is consumed per RNG call).  The
  structure carries the documented contracts of the Python generator:
  `random()` returns a value in `[0, 1)` and `randrange(n)` (as well as
  the internal `_randbelow(n)`) returns a value in `[0, n)` for `n > 0`.
* Code that can raise is modelled in `Option` / `Except`.
-/

namespace LuckyDraw

/-- The fixed ordered prize list (`PRIZES` in the source). -/
def PRIZES : List String :=
  ["photo frame", "slogan", "sticker set", "notebook", "pin button", "postcard"]

/-- Default weights for tiered draws, aligned with `PRIZES`
(`DEFAULT_WEIGHTS` in the source). -/
def DEFAULT_WEIGHTS : List ℚ :=
  [1, 3, 6, 10, 20, 30]

/-- Model of a seeded `random.Random` instance: the `t`-th RNG call made by
the program reads entry `t` of the stream.  `rand t` models the result of a
`random()` call, `range t n` the result of `randrange(n)` / `_randbelow(n)`.
The proof fields are the documented output ranges of the Python generator. -/
structure RNG where
  rand : ℕ → ℚ
  range : ℕ → ℕ → ℕ
  rand_nonneg : ∀ t, 0 ≤ rand t
  rand_lt_one : ∀ t, rand t < 1
  range_lt : ∀ t n, 0 < n → range t n < n

/-- The inner scan of `weighted_sample_without_replacement`
(`for i, wi in enumerate(w): cum += wi; if r <= cum: ... break`):
returns the index of the first element whose running cumulative sum
(starting from `cum`) reaches or exceeds `r`, or `none` when the loop
falls through without a `break`.  The local bindings of the source
(`total`, `r`, `idx`, `j`) are pure values here and are inlined at their
use sites; each still corresponds to exactly one RNG call. -/
def scanSelect : List ℚ → ℚ → ℚ → Option ℕ
  | [], _, _ => none
  | wi :: rest, r, cum =>
    if r ≤ cum + wi then some 0
    else (scanSelect rest r (cum + wi)).map (· + 1)

/-- The `for _ in range(k)` loop of `weighted_sample_without_replacement`,
acting on the local copies `pop` and `w`.  `s` is the number of iterations
left and `t` the RNG call counter.  `none` models an uncaught library
exception: `rng.randrange(0)` raises `ValueError` when `pop` is empty, and
`pop.pop(i)` raises `IndexError` when `i` is out of range (both are
unreachable from `draw_prizes`, as proved below). -/
def wswrGo (rng : RNG) : ℕ → ℕ → List String → List ℚ → Option (List String)
  | 0, _, _, _ => some []
  | s + 1, t, pop, w =>
    if w.sum ≤ 0 then
      if pop.length = 0 then
        none
      else
        (wswrGo rng s (t + 1) (pop.eraseIdx (rng.range t pop.length))
            (w.eraseIdx (rng.range t pop.length))).map
          (fun res => pop.getD (rng.range t pop.length) "" :: res)
    else
      match scanSelect w (rng.rand t * w.sum) 0 with
      | some i =>
        if i < pop.length then
          (wswrGo rng s (t + 1) (pop.eraseIdx i) (w.eraseIdx i)).map
            (fun res => pop.getD i "" :: res)
        else
          none
      | none => wswrGo rng s (t + 1) pop w

/-- `weighted_sample_without_replacement(population, weights, k, rng)`.
The `k < 0` check of the source is vacuous here because `k : ℕ`.
The loop acts on the copies `pop = population[:]` and `w = weights[:]`. -/
def weighted_sample_without_replacement (population : List String)
    (weights : List ℚ) (k : ℕ) (rng : RNG) (t : ℕ) :
    Except String (List String) :=
  if k > population.length then
    Except.error "k must be <= population size for sampling without replacement"
  else
    match wswrGo rng k t population weights with
    | some res => Except.ok res
    | none => Except.error "unreachable library error in sampling loop"

/-- Running totals of a weight list, as `itertools.accumulate` produces them
inside `random.choices` (`c` is the sum accumulated so far, initially `0`). -/
def accumulate : List ℚ → ℚ → List ℚ
  | [], _ => []
  | x :: xs, c => (c + x) :: accumulate xs (c + x)

/-- `bisect.bisect_right(a, x, lo, hi)`, written with an explicit fuel
counter so that the definition computes by kernel reduction; `fuel ≥ hi - lo`
suffices because each loop iteration shrinks the interval. -/
def bisectRightFuel (a : List ℚ) (x : ℚ) : ℕ → ℕ → ℕ → ℕ
  | 0, lo, _ => lo
  | fuel + 1, lo, hi =>
    if lo < hi then
      let mid := (lo + hi) / 2
      if x < a.getD mid 0 then bisectRightFuel a x fuel lo mid
      else bisectRightFuel a x fuel (mid + 1) hi
    else lo

/-- `bisect.bisect_right(a, x, lo, hi)` with the canonical fuel. -/
def bisect (a : List ℚ) (x : ℚ) (lo hi : ℕ) : ℕ :=
  bisectRightFuel a x (hi - lo) lo hi

/-- `rng.choices(population, weights=w, k=k)` as implemented by CPython ≥ 3.9
(`Lib/random.py`): build the cumulative weights, check their length, raise
`ValueError` when the total is not positive, then draw `k` indices with
`bisect(cum_weights, random() * total, 0, n - 1)`.  The finiteness check on
`total` is omitted because rationals are always finite. -/
def choices (rng : RNG) (t : ℕ) (population : List String) (weights : List ℚ)
    (k : ℕ) : Except String (List String) :=
  let cum_weights := accumulate weights 0
  if cum_weights.length ≠ population.length then
    Except.error "The number of weights does not match the population"
  else
    match cum_weights.getLast? with
    | none => Except.error "list index out of range"
    | some total =>
      if total ≤ 0 then
        Except.error "Total of weights must be greater than zero"
      else
        let hi := population.length - 1
        Except.ok ((List.range k).map fun i =>
          population.getD (bisect cum_weights (rng.rand (t + i) * total) 0 hi) "")

/-- The selection loop of `rng.sample` for a small population (CPython uses
the pool path whenever `n ≤ setsize`, and `setsize ≥ 21 > 6` always holds
here): `s` iterations remain, `m` is the active pool size `n - i`, and each
step picks `j = _randbelow(m)`, emits `pool[j]`, and overwrites `pool[j]`
with the last active element `pool[m - 1]`. -/
def sampleLoop (rng : RNG) : ℕ → ℕ → ℕ → List String → List String
  | 0, _, _, _ => []
  | s + 1, t, m, pool =>
    pool.getD (rng.range t m) "" ::
      sampleLoop rng s (t + 1) (m - 1)
        (pool.set (rng.range t m) (pool.getD (m - 1) ""))

/-- `rng.sample(population, k)` (CPython `Lib/random.py`, pool branch). -/
def sample (rng : RNG) (t : ℕ) (population : List String) (k : ℕ) :
    Except String (List String) :=
  if k > population.length then
    Except.error "Sample larger than population or is negative"
  else
    Except.ok (sampleLoop rng k t population.length population)

/-- `[rng.choice(seq) for _ in range(k)]`: each iteration raises `IndexError`
on an empty sequence and otherwise returns `seq[_randbelow(len(seq))]`. -/
def choiceList (rng : RNG) (t : ℕ) (seq : List String) (k : ℕ) :
    Except String (List String) :=
  if k ≠ 0 ∧ seq.length = 0 then
    Except.error "Cannot choose from an empty sequence"
  else
    Except.ok ((List.range k).map fun i => seq.getD (rng.range (t + i) seq.length) "")

/-- `draw_prizes(quantity, unique, seed, tiered, weights)`.  The construction
`rng = random.Random(seed)` is abstracted by passing the generator's output
stream `rng` directly; the RNG call counter starts at `0`. -/
def draw_prizes (quantity : ℤ) (unique : Bool) (tiered : Bool)
    (weights : Option (List ℚ)) (rng : RNG) : Except String (List String) :=
  if quantity < 1 then
    Except.error "quantity must be at least 1"
  else
    let w := weights.getD DEFAULT_WEIGHTS
    if w.length ≠ PRIZES.length then
      Except.error "weights length must match number of prizes"
    else if unique then
      if quantity > (PRIZES.length : ℤ) then
        Except.error "quantity must be <= 6 when drawing unique prizes"
      else if tiered then
        weighted_sample_without_replacement PRIZES w quantity.toNat rng 0
      else
        sample rng 0 PRIZES quantity.toNat
    else
      if tiered then
        choices rng 0 PRIZES w quantity.toNat
      else
        choiceList rng 0 PRIZES quantity.toNat

/-- Convenience accessor for the list inside an `ok` result. -/
def resultOf (e : Except String (List String)) : List String :=
  e.toOption.getD []

/-- Whether a call returned normally (no exception). -/
def isOk (e : Except String (List String)) : Bool :=
  e.toOption.isSome

/-- A deterministic RNG stream: every `random()` call yields `0` and every
`randrange(n)` call yields `0`. -/
def rngZero : RNG where
  rand := fun _ => 0
  range := fun _ _ => 0
  rand_nonneg := fun _ => le_refl 0
  rand_lt_one := fun _ => by norm_num
  range_lt := fun _ _ h => h

/-- A deterministic RNG stream: every `random()` call yields `1/2` and every
`randrange(n)` call yields `0`. -/
def rngHalf : RNG where
  rand := fun _ => 1 / 2
  range := fun _ _ => 0
  rand_nonneg := fun _ => by norm_num
  rand_lt_one := fun _ => by norm_num
  range_lt := fun _ _ h => h

/-! ### List helper lemmas -/

/-- Removing the element at a valid index and putting it back in front is a
permutation of the original list. -/
theorem getD_cons_eraseIdx_perm {α : Type} (d : α) :
    ∀ (l : List α) (i : ℕ), i < l.length → List.Perm (l.getD i d :: l.eraseIdx i) l
  | a :: l, 0, _ => by simp
  | a :: l, i + 1, h => by
    have hi : i < l.length := by simpa using h
    have ih := getD_cons_eraseIdx_perm d l i hi
    simpa using ((List.Perm.swap a (l.getD i d) (l.eraseIdx i)).trans (ih.cons a))

/-- Overwriting a valid index is, up to permutation, removing that index and
adding the new value. -/
theorem set_perm_cons_eraseIdx {α : Type} (v : α) :
    ∀ (l : List α) (i : ℕ), i < l.length → List.Perm (l.set i v) (v :: l.eraseIdx i)
  | a :: l, 0, _ => by simp
  | a :: l, i + 1, h => by
    have hi : i < l.length := by simpa using h
    have ih := set_perm_cons_eraseIdx v l i hi
    simpa using (ih.cons a).trans (List.Perm.swap v a (l.eraseIdx i))

/-- `List.set` commutes with `List.take`. -/
theorem take_set_comm {α : Type} (v : α) :
    ∀ (l : List α) (i n : ℕ), (l.set i v).take n = (l.take n).set i v
  | [], i, n => by simp
  | a :: l, 0, 0 => by simp
  | a :: l, 0, n + 1 => by simp
  | a :: l, i + 1, 0 => by simp
  | a :: l, i + 1, n + 1 => by
    simp [take_set_comm v l i n]

/-- `getD` at a valid index is a member of the list. -/
theorem getD_mem {α : Type} {l : List α} {i : ℕ} (d : α) (h : i < l.length) :
    l.getD i d ∈ l := by
  rw [List.getD_eq_getElem?_getD, List.getElem?_eq_getElem h]
  exact List.getElem_mem h

/-- `Subperm` is preserved by consing the same element on both sides. -/
theorem subperm_cons_cons {α : Type} (a : α) {l₁ l₂ : List α}
    (h : List.Subperm l₁ l₂) : List.Subperm (a :: l₁) (a :: l₂) := by
  obtain ⟨l, hp, hs⟩ := h
  exact ⟨a :: l, hp.cons a, hs.cons₂ a⟩

/-- A subpermutation of a duplicate-free list is duplicate-free. -/
theorem nodup_of_subperm {α : Type} {l₁ l₂ : List α}
    (h : List.Subperm l₁ l₂) (h₂ : l₂.Nodup) : l₁.Nodup := by
  obtain ⟨l, hp, hs⟩ := h
  exact (List.Nodup.sublist hs h₂).perm hp

/-! ### Properties of the selection scan -/

/-- Characterization of the selection scan: it returns index `i` exactly when
`i` is the first position whose running cumulative sum reaches or exceeds `r`
(the comparison is `≤`, so a cumulative sum exactly equal to `r` selects). -/
theorem scanSelect_eq_some_iff :
    ∀ (w : List ℚ) (r c : ℚ) (i : ℕ),
      scanSelect w r c = some i ↔
        i < w.length ∧ r ≤ c + (w.take (i + 1)).sum ∧
          ∀ j, j < i → c + (w.take (j + 1)).sum < r
  | [], r, c, i => by simp [scanSelect]
  | wi :: rest, r, c, i => by
    rw [scanSelect]
    by_cases h : r ≤ c + wi
    · rw [if_pos h]
      cases i with
      | zero => simp [h]
      | succ i =>
        constructor
        · intro hc
          exact absurd (Option.some.inj hc) (by omega)
        · rintro ⟨-, -, hall⟩
          have h0 := hall 0 (Nat.succ_pos _)
          simp only [List.take_succ_cons, List.take_zero, List.sum_cons,
            List.sum_nil, add_zero] at h0
          exact absurd h (not_le.mpr h0)
    · rw [if_neg h]
      cases i with
      | zero =>
        simp only [Option.map_eq_some', List.take_succ_cons, List.take_zero,
          List.sum_cons, List.sum_nil, add_zero]
        constructor
        · rintro ⟨a, -, ha⟩
          exact absurd ha (by omega)
        · rintro ⟨-, hr, -⟩
          exact absurd hr h
      | succ i =>
        have ih := scanSelect_eq_some_iff rest r (c + wi) i
        constructor
        · intro hc
          obtain ⟨a, ha, hai⟩ := Option.map_eq_some'.mp hc
          have hai' : a = i := by omega
          subst hai'
          obtain ⟨h1, h2, h3⟩ := ih.mp ha
          refine ⟨by simpa using Nat.succ_lt_succ h1, by
            simpa [add_assoc] using h2, ?_⟩
          intro j hj
          cases j with
          | zero => simpa using not_le.mp h
          | succ j =>
            have := h3 j (by omega)
            simpa [add_assoc] using this
        · rintro ⟨h1, h2, h3⟩
          have hi : scanSelect rest r (c + wi) = some i := by
            refine ih.mpr ⟨by simpa using h1, by simpa [add_assoc] using h2, ?_⟩
            intro j hj
            have := h3 (j + 1) (by omega)
            simpa [add_assoc] using this
          rw [hi]
          rfl

/-- A selected index is a valid index into the weight list. -/
theorem scanSelect_lt_length {w : List ℚ} {r c : ℚ} {i : ℕ}
    (h : scanSelect w r c = some i) : i < w.length :=
  ((scanSelect_eq_some_iff w r c i).mp h).1

/-- The scan always selects when `r` does not exceed the total remaining
weight (this is why the Python loop's fall-through never happens when
`random()` returns a value `< 1`). -/
theorem scanSelect_total :
    ∀ (w : List ℚ) (r c : ℚ), w ≠ [] → r ≤ c + w.sum →
      ∃ i, scanSelect w r c = some i
  | [], _, _, h, _ => absurd rfl h
  | wi :: rest, r, c, _, hle => by
    rw [scanSelect]
    by_cases h : r ≤ c + wi
    · exact ⟨0, if_pos h⟩
    · rw [if_neg h]
      match rest with
      | [] =>
        exfalso
        apply h
        simpa using hle
      | y :: ys =>
        obtain ⟨i, hi⟩ := scanSelect_total (y :: ys) r (c + wi) (by simp)
          (by simpa [add_assoc] using hle)
        exact ⟨i + 1, by rw [hi]; rfl⟩

/-! ### Properties of `accumulate` and `bisect` -/

/-- `accumulate` preserves length. -/
theorem accumulate_length : ∀ (w : List ℚ) (c : ℚ),
    (accumulate w c).length = w.length
  | [], _ => rfl
  | _ :: xs, c => by simp [accumulate, accumulate_length xs]

/-- Auxiliary: `getLast?` ignores the head when the tail is nonempty. -/
theorem getLast?_cons_ne {α : Type} (a : α) :
    ∀ (l : List α), l ≠ [] → (a :: l).getLast? = l.getLast?
  | [], h => absurd rfl h
  | _ :: _, _ => List.getLast?_cons_cons

/-- The last cumulative weight is the total weight. -/
theorem accumulate_getLast? : ∀ (w : List ℚ) (c : ℚ), w ≠ [] →
    (accumulate w c).getLast? = some (c + w.sum)
  | [], _, h => absurd rfl h
  | [x], c, _ => by simp [accumulate]
  | x :: y :: ys, c, _ => by
    rw [accumulate]
    have ih := accumulate_getLast? (y :: ys) (c + x) (by simp)
    have hne : accumulate (y :: ys) (c + x) ≠ [] := by
      intro hc
      have := accumulate_length (y :: ys) (c + x)
      rw [hc] at this
      simp at this
    rw [getLast?_cons_ne _ _ hne, ih]
    simp [add_assoc]

/-- `bisect_right` never returns an index above `hi`. -/
theorem bisectRightFuel_le (a : List ℚ) (x : ℚ) :
    ∀ (fuel lo hi : ℕ), lo ≤ hi → bisectRightFuel a x fuel lo hi ≤ hi
  | 0, lo, hi, h => h
  | fuel + 1, lo, hi, h => by
    rw [bisectRightFuel]
    by_cases hlt : lo < hi
    · rw [if_pos hlt]
      by_cases hx : x < a.getD ((lo + hi) / 2) 0
      · rw [if_pos hx]
        exact le_trans (bisectRightFuel_le a x fuel lo ((lo + hi) / 2) (by omega))
          (by omega)
      · rw [if_neg hx]
        exact bisectRightFuel_le a x fuel ((lo + hi) / 2 + 1) hi (by omega)
    · rw [if_neg hlt]
      exact h

/-- `bisect a x 0 hi ≤ hi`. -/
theorem bisect_le (a : List ℚ) (x : ℚ) (hi : ℕ) : bisect a x 0 hi ≤ hi :=
  bisectRightFuel_le a x (hi - 0) 0 hi (Nat.zero_le hi)

/-! ### The sampling loop always succeeds, has the right length, and draws
distinct elements of the population -/

/-- Main invariant of the `weighted_sample_without_replacement` loop: with
enough remaining elements and aligned lengths, the loop succeeds, produces
exactly one element per iteration, and the result is (a permutation of) a
sublist of the remaining population. -/
theorem wswrGo_ok (rng : RNG) :
    ∀ (s t : ℕ) (pop : List String) (w : List ℚ), s ≤ pop.length →
      w.length = pop.length →
      ∃ res, wswrGo rng s t pop w = some res ∧ res.length = s ∧
        List.Subperm res pop
  | 0, _, _, _, _, _ => ⟨[], rfl, rfl, List.nil_subperm⟩
  | s + 1, t, pop, w, hs, hl => by
    have hpos : 0 < pop.length := by omega
    by_cases htot : w.sum ≤ 0
    · have hlt : rng.range t pop.length < pop.length :=
        rng.range_lt t pop.length hpos
      obtain ⟨res, hres, hlen, hsub⟩ := wswrGo_ok rng s (t + 1)
        (pop.eraseIdx (rng.range t pop.length))
        (w.eraseIdx (rng.range t pop.length))
        (by rw [List.length_eraseIdx, if_pos hlt]; omega)
        (by rw [List.length_eraseIdx, List.length_eraseIdx, if_pos hlt, hl,
              if_pos hlt])
      refine ⟨pop.getD (rng.range t pop.length) "" :: res, ?_, by simp [hlen], ?_⟩
      · simp only [wswrGo, if_pos htot, if_neg (by omega : ¬ pop.length = 0), hres,
          Option.map_some']
      · exact (subperm_cons_cons _ hsub).trans
          (getD_cons_eraseIdx_perm "" pop _ hlt).subperm
    · push_neg at htot
      have hw : w ≠ [] := by
        intro h
        rw [h] at htot
        simp at htot
      have hr : rng.rand t * w.sum ≤ 0 + w.sum := by
        have h1 := rng.rand_lt_one t
        have h0 := rng.rand_nonneg t
        nlinarith
      obtain ⟨i, hi⟩ := scanSelect_total w (rng.rand t * w.sum) 0 hw hr
      have hilt : i < pop.length := hl ▸ scanSelect_lt_length hi
      obtain ⟨res, hres, hlen, hsub⟩ := wswrGo_ok rng s (t + 1)
        (pop.eraseIdx i) (w.eraseIdx i)
        (by rw [List.length_eraseIdx, if_pos hilt]; omega)
        (by rw [List.length_eraseIdx, List.length_eraseIdx, if_pos hilt, hl,
              if_pos hilt])
      refine ⟨pop.getD i "" :: res, ?_, by simp [hlen], ?_⟩
      · simp only [wswrGo, if_neg (not_le.mpr htot), hi, if_pos hilt, hres,
          Option.map_some']
      · exact (subperm_cons_cons _ hsub).trans
          (getD_cons_eraseIdx_perm "" pop _ hilt).subperm

/-- The sample loop produces one element per iteration. -/
theorem sampleLoop_length (rng : RNG) :
    ∀ (s t m : ℕ) (pool : List String), (sampleLoop rng s t m pool).length = s
  | 0, _, _, _ => rfl
  | s + 1, t, m, pool => by
    simp [sampleLoop, sampleLoop_length rng s]

/-- One step of the pool trick of `rng.sample`: emitting `pool[j]` and
overwriting position `j` with the last active element permutes the active
prefix. -/
theorem sample_step_perm (pool : List String) (j m : ℕ) (hj : j < m)
    (hm : m ≤ pool.length) :
    List.Perm (pool.getD j "" :: (pool.set j (pool.getD (m - 1) "")).take (m - 1))
      (pool.take m) := by
  have hm1 : m - 1 < pool.length := by omega
  have htake : pool.take m = pool.take (m - 1) ++ [pool.getD (m - 1) ""] := by
    conv_lhs => rw [show m = (m - 1) + 1 from by omega, List.take_succ]
    rw [List.getElem?_eq_getElem hm1]
    simp [List.getD_eq_getElem?_getD, List.getElem?_eq_getElem hm1]
  rw [take_set_comm]
  by_cases hjm : j < m - 1
  · have hTlen : (pool.take (m - 1)).length = m - 1 := by
      rw [List.length_take]
      omega
    have h1 := set_perm_cons_eraseIdx (pool.getD (m - 1) "") (pool.take (m - 1)) j
      (by omega)
    have h2 : (pool.take (m - 1)).getD j "" = pool.getD j "" := by
      rw [List.getD_eq_getElem?_getD, List.getD_eq_getElem?_getD,
        List.getElem?_take_of_lt hjm]
    have h3 := getD_cons_eraseIdx_perm "" (pool.take (m - 1)) j (by omega)
    rw [h2] at h3
    have p1 := h1.cons (pool.getD j "")
    have p2 := List.Perm.swap (pool.getD (m - 1) "") (pool.getD j "")
      ((pool.take (m - 1)).eraseIdx j)
    have p4 := h3.cons (pool.getD (m - 1) "")
    have p5 := (List.perm_append_singleton (pool.getD (m - 1) "")
      (pool.take (m - 1))).symm
    rw [htake]
    exact ((p1.trans p2).trans p4).trans p5
  · have hj1 : j = m - 1 := by omega
    subst hj1
    rw [List.set_eq_of_length_le (by rw [List.length_take]; omega)]
    rw [htake]
    exact (List.perm_append_singleton _ _).symm

/-- Main invariant of the `rng.sample` pool loop. -/
theorem sampleLoop_subperm (rng : RNG) :
    ∀ (s t m : ℕ) (pool : List String), s ≤ m → m ≤ pool.length →
      List.Subperm (sampleLoop rng s t m pool) (pool.take m)
  | 0, _, _, _, _, _ => List.nil_subperm
  | s + 1, t, m, pool, hs, hm => by
    have hm0 : 0 < m := by omega
    have hj : rng.range t m < m := rng.range_lt t m hm0
    have ih := sampleLoop_subperm rng s (t + 1) (m - 1)
      (pool.set (rng.range t m) (pool.getD (m - 1) ""))
      (by omega) (by rw [List.length_set]; omega)
    rw [sampleLoop]
    exact (subperm_cons_cons _ ih).trans
      (sample_step_perm pool (rng.range t m) m hj hm).subperm

/-! ### The draw is a function of the inputs and the RNG stream consumed -/

/-- The weighted loop only consults the RNG streams at call indices
`t, …, t + s - 1` (one call per iteration). -/
theorem wswrGo_congr (rng₁ rng₂ : RNG) :
    ∀ (s t : ℕ) (pop : List String) (w : List ℚ),
      (∀ j, j < s → rng₁.rand (t + j) = rng₂.rand (t + j) ∧
        ∀ n, rng₁.range (t + j) n = rng₂.range (t + j) n) →
      wswrGo rng₁ s t pop w = wswrGo rng₂ s t pop w
  | 0, _, _, _, _ => rfl
  | s + 1, t, pop, w, h => by
    have h0 := h 0 (Nat.succ_pos s)
    simp only [Nat.add_zero] at h0
    have ht : ∀ j, j < s → rng₁.rand (t + 1 + j) = rng₂.rand (t + 1 + j) ∧
        ∀ n, rng₁.range (t + 1 + j) n = rng₂.range (t + 1 + j) n := by
      intro j hj
      have hh := h (j + 1) (by omega)
      rwa [show t + (j + 1) = t + 1 + j from by omega] at hh
    by_cases h1 : w.sum ≤ 0
    · by_cases h2 : pop.length = 0
      · simp only [wswrGo, if_pos h1, if_pos h2]
      · simp only [wswrGo, if_pos h1, if_neg h2, h0.2 pop.length,
          wswrGo_congr rng₁ rng₂ s (t + 1) _ _ ht]
    · simp only [wswrGo, if_neg h1, h0.1]
      cases hsel : scanSelect w (rng₂.rand t * w.sum) 0 with
      | none => simp only [hsel, wswrGo_congr rng₁ rng₂ s (t + 1) pop w ht]
      | some i =>
        by_cases h3 : i < pop.length
        · simp only [hsel, if_pos h3,
            wswrGo_congr rng₁ rng₂ s (t + 1) (pop.eraseIdx i) (w.eraseIdx i) ht]
        · simp only [hsel, if_neg h3]

/-- The sample loop only consults the RNG streams at call indices
`t, …, t + s - 1`. -/
theorem sampleLoop_congr (rng₁ rng₂ : RNG) :
    ∀ (s t m : ℕ) (pool : List String),
      (∀ j, j < s → ∀ n, rng₁.range (t + j) n = rng₂.range (t + j) n) →
      sampleLoop rng₁ s t m pool = sampleLoop rng₂ s t m pool
  | 0, _, _, _, _ => rfl
  | s + 1, t, m, pool, h => by
    have h0 := h 0 (Nat.succ_pos s)
    simp only [Nat.add_zero] at h0
    have ht : ∀ j, j < s → ∀ n,
        rng₁.range (t + 1 + j) n = rng₂.range (t + 1 + j) n := by
      intro j hj n
      have hh := h (j + 1) (by omega) n
      rwa [show t + (j + 1) = t + 1 + j from by omega] at hh
    simp only [sampleLoop, h0 m,
      sampleLoop_congr rng₁ rng₂ s (t + 1) (m - 1) _ ht]

/-! ### The CLI layer (`main`) -/

/-- Exit code and printed lines of one `main` invocation; `stdout` and
`stderr` collect one entry per `print` call on the respective stream. -/
structure MainResult where
  exitCode : ℕ
  stdout : List String
  stderr : List String
deriving DecidableEq

/-- The numbered result lines
(`for i, prize in enumerate(prizes, start=1): print(f" {i}. {prize}")`). -/
def numberedLines (prizes : List String) : List String :=
  (List.enumFrom 1 prizes).map fun ip => " " ++ toString ip.1 ++ ". " ++ ip.2

/-- The summary block: one line per category with a nonzero count, in the
fixed `PRIZES` order (`for prize in PRIZES: if counts[prize]: print(...)`). -/
def summaryLines (prizes : List String) : List String :=
  (PRIZES.filter fun p => prizes.count p ≠ 0).map
    fun p => " - " ++ p ++ ": " ++ toString (prizes.count p)

/-- The part of `main` after a quantity is available: run the draw and print
either the error (exit code 2) or the results and summary (exit code 0). -/
def mainDraw (q : ℤ) (unique tiered : Bool) (rng : RNG) : MainResult :=
  match draw_prizes q unique tiered none rng with
  | Except.error e => ⟨2, [], ["Error: " ++ e]⟩
  | Except.ok prizes =>
    ⟨0,
      ("\nYou bought: " ++ toString q ++ " prize(s). Here are your randomized prizes:\n")
        :: (numberedLines prizes ++ "\nSummary:" :: summaryLines prizes),
      []⟩

/-- `main(argv)` with the glue abstracted: `argQuantity` is the positional
`quantity` argument (already an integer when present, per `argparse`), and
`parsedInput` is the result of `int(input(...).strip())` for the interactive
prompt — `none` when that parse raises `ValueError`. -/
def main (argQuantity : Option ℤ) (unique : Bool) (tiered : Bool)
    (parsedInput : Option ℤ) (rng : RNG) : MainResult :=
  match argQuantity with
  | some q => mainDraw q unique tiered rng
  | none =>
    match parsedInput with
    | none =>
      ⟨1, [], ["Invalid input. Please enter a positive integer for quantity."]⟩
    | some q => mainDraw q unique tiered rng

/-! ### Frame: the sampler mutates only its local copies -/

/-- `weighted_sample_without_replacement` together with the caller-visible
lists after the call.  The source copies its inputs (`pop = population[:]`,
`w = weights[:]`, lines 70–71) and every mutation (`pop.pop`, `w.pop`) acts
on the copies, so the caller's lists after the call are exactly the ones
passed in. -/
def wswrWithCallerLists (population : List String) (weights : List ℚ) (k : ℕ)
    (rng : RNG) (t : ℕ) :
    Except String (List String) × (List String × List ℚ) :=
  (weighted_sample_without_replacement population weights k rng t,
    (population, weights))

/-- `draw_prizes` with the module-level constant lists passed as explicit
state and returned after the call, so that preservation of the globals is
expressible.  The body is the body of `draw_prizes` with every read of
`PRIZES` / `DEFAULT_WEIGHTS` going through the state. -/
def draw_prizesWithGlobals (prizes : List String) (default_weights : List ℚ)
    (quantity : ℤ) (unique tiered : Bool) (weights : Option (List ℚ))
    (rng : RNG) :
    Except String (List String) × (List String × List ℚ) :=
  (if quantity < 1 then
    Except.error "quantity must be at least 1"
  else
    let w := weights.getD default_weights
    if w.length ≠ prizes.length then
      Except.error "weights length must match number of prizes"
    else if unique then
      if quantity > (prizes.length : ℤ) then
        Except.error "quantity must be <= 6 when drawing unique prizes"
      else if tiered then
        weighted_sample_without_replacement prizes w quantity.toNat rng 0
      else
        sample rng 0 prizes quantity.toNat
    else
      if tiered then
        choices rng 0 prizes w quantity.toNat
      else
        choiceList rng 0 prizes quantity.toNat,
  (prizes, default_weights))

/-- The fixed prize list has no duplicates. -/
theorem PRIZES_nodup : PRIZES.Nodup := by decide

/-- The enumerated print loop emits exactly one line per prize, the line for
position `i` carrying the 1-indexed number `n + i`. -/
theorem enumFrom_lines_eq :
    ∀ (prizes : List String) (n : ℕ),
      (List.enumFrom n prizes).map
          (fun ip => " " ++ toString ip.1 ++ ". " ++ ip.2) =
        (List.range prizes.length).map
          (fun i => " " ++ toString (n + i) ++ ". " ++ prizes.getD i "")
  | [], _ => rfl
  | a :: l, n => by
    have ih := enumFrom_lines_eq l (n + 1)
    simp only [List.enumFrom, List.map_cons, List.length_cons]
    rw [List.range_succ_eq_map, List.map_cons, List.map_map]
    have hhead : " " ++ toString n ++ ". " ++ a =
        " " ++ toString (n + 0) ++ ". " ++ (a :: l).getD 0 "" := by
      simp
    have htail : (List.enumFrom (n + 1) l).map
        (fun ip => " " ++ toString ip.1 ++ ". " ++ ip.2) =
        (List.range l.length).map
          ((fun i => " " ++ toString (n + i) ++ ". " ++ (a :: l).getD i "") ∘
            Nat.succ) := by
      rw [ih]
      refine List.map_congr_left ?_
      intro i _
      simp only [Function.comp_apply, List.getD_cons_succ]
      rw [show n + 1 + i = n + (i + 1) from by omega]
    rw [hhead, htail]

/-- `numberedLines` in closed form: one line per index, 1-indexed. -/
theorem numberedLines_eq (prizes : List String) :
    numberedLines prizes =
      (List.range prizes.length).map
        (fun i => " " ++ toString (i + 1) ++ ". " ++ prizes.getD i "") := by
  unfold numberedLines
  rw [enumFrom_lines_eq]
  refine List.map_congr_left ?_
  intro i _
  rw [show 1 + i = i + 1 from by omega]

/-- `summaryLines` with the count condition written as `0 < count`. -/
theorem summaryLines_eq (prizes : List String) :
    summaryLines prizes =
      (PRIZES.filter fun p => 0 < prizes.count p).map
        (fun p => " - " ++ p ++ ": " ++ toString (prizes.count p)) := by
  unfold summaryLines
  congr 1
  refine List.filter_congr ?_
  intro p _
  exact decide_eq_decide.mpr Nat.pos_iff_ne_zero.symm

/-- Every element the weighted loop emits comes from the remaining
population. -/
theorem wswrGo_mem (rng : RNG) :
    ∀ (s t : ℕ) (pop : List String) (w : List ℚ) (res : List String),
      wswrGo rng s t pop w = some res → ∀ x ∈ res, x ∈ pop
  | 0, _, _, _, res, h => by
    cases h
    intro x hx
    cases hx
  | s + 1, t, pop, w, res, h => by
    by_cases h1 : w.sum ≤ 0
    · by_cases h2 : pop.length = 0
      · simp [wswrGo, h1, h2] at h
      · simp only [wswrGo, if_pos h1, if_neg h2, Option.map_eq_some'] at h
        obtain ⟨res', hres', hcons⟩ := h
        subst hcons
        intro x hx
        rcases List.mem_cons.mp hx with hx | hx
        · subst hx
          exact getD_mem "" (rng.range_lt t pop.length (by omega))
        · exact List.eraseIdx_subset pop _ (wswrGo_mem rng s (t + 1) _ _ res' hres' x hx)
    · simp only [wswrGo, if_neg h1] at h
      cases hsel : scanSelect w (rng.rand t * w.sum) 0 with
      | none =>
        rw [hsel] at h
        exact wswrGo_mem rng s (t + 1) pop w res h
      | some i =>
        rw [hsel] at h
        by_cases h3 : i < pop.length
        · simp only [if_pos h3, Option.map_eq_some'] at h
          obtain ⟨res', hres', hcons⟩ := h
          subst hcons
          intro x hx
          rcases List.mem_cons.mp hx with hx | hx
          · subst hx
            exact getD_mem "" h3
          · exact List.eraseIdx_subset pop _
              (wswrGo_mem rng s (t + 1) _ _ res' hres' x hx)
        · simp [if_neg h3] at h

/-- One unfolding step of the weighted loop in the selecting branch. -/
theorem wswrGo_select_step (rng : RNG) (s t : ℕ) (pop : List String)
    (w : List ℚ) (i : ℕ) (hpos : ¬ w.sum ≤ 0)
    (hsel : scanSelect w (rng.rand t * w.sum) 0 = some i)
    (hlt : i < pop.length) :
    wswrGo rng (s + 1) t pop w =
      (wswrGo rng s (t + 1) (pop.eraseIdx i) (w.eraseIdx i)).map
        (fun res => pop.getD i "" :: res) := by
  simp only [wswrGo, if_neg hpos, hsel, if_pos hlt]

/-- With a feasible request, `weighted_sample_without_replacement` returns
normally. -/
theorem wswr_ok (pop : List String) (w : List ℚ) (k : ℕ) (rng : RNG) (t : ℕ)
    (hk : k ≤ pop.length) (hl : w.length = pop.length) :
    ∃ res, weighted_sample_without_replacement pop w k rng t = Except.ok res ∧
      res.length = k ∧ List.Subperm res pop := by
  obtain ⟨res, hres, hlen, hsub⟩ := wswrGo_ok rng k t pop w hk hl
  refine ⟨res, ?_, hlen, hsub⟩
  simp only [weighted_sample_without_replacement, if_neg (not_lt.mpr hk), hres]

/-- With aligned lengths and a positive total, `rng.choices` returns the
bisect-indexed draws. -/
theorem choices_ok (rng : RNG) (t : ℕ) (pop : List String) (w : List ℚ)
    (k : ℕ) (hl : w.length = pop.length) (hw : w ≠ []) (hs : 0 < w.sum) :
    choices rng t pop w k =
      Except.ok ((List.range k).map fun i =>
        pop.getD
          (bisect (accumulate w 0) (rng.rand (t + i) * (0 + w.sum)) 0
            (pop.length - 1)) "") := by
  have hlen : ¬ (accumulate w 0).length ≠ pop.length := by
    rw [accumulate_length]
    omega
  simp only [choices, if_neg hlen, accumulate_getLast? w 0 hw,
    if_neg (by simpa using not_le.mpr hs : ¬ (0 : ℚ) + w.sum ≤ 0)]

/-! ### Claim theorems -/

/-- C1: in a draw step of `weighted_sample_without_replacement` whose
remaining total weight is positive, the drawn value `r = random() * total`
lies in `[0, total)`, and the step selects exactly the first category, in
current working-list order, whose cumulative (running-sum) weight reaches or
exceeds `r` — the comparison is `≤`, so an exact hit on a cumulative
boundary selects the earlier-indexed category.  The selected category and
its weight are removed from the working lists and the category is prepended
to the recursively computed rest (i.e. appended to the result built so
far). -/
theorem c1_step_semantics (rng : RNG) (s t : ℕ) (pop : List String)
    (w : List ℚ) (hpos : 0 < w.sum) (hlen : w.length = pop.length) :
    ∃ i, i < pop.length ∧
      (0 ≤ rng.rand t * w.sum ∧ rng.rand t * w.sum < w.sum) ∧
      rng.rand t * w.sum ≤ (w.take (i + 1)).sum ∧
      (∀ j, j < i → (w.take (j + 1)).sum < rng.rand t * w.sum) ∧
      wswrGo rng (s + 1) t pop w =
        (wswrGo rng s (t + 1) (pop.eraseIdx i) (w.eraseIdx i)).map
          (fun res => pop.getD i "" :: res) := by
  have hw : w ≠ [] := by
    intro hnil
    rw [hnil] at hpos
    simp at hpos
  have hrle : rng.rand t * w.sum ≤ 0 + w.sum := by
    have h1 := rng.rand_lt_one t
    have h0 := rng.rand_nonneg t
    nlinarith
  obtain ⟨i, hi⟩ := scanSelect_total w (rng.rand t * w.sum) 0 hw hrle
  obtain ⟨h1, h2, h3⟩ := (scanSelect_eq_some_iff w _ 0 i).mp hi
  have hilt : i < pop.length := hlen ▸ h1
  refine ⟨i, hilt, ⟨mul_nonneg (rng.rand_nonneg t) (le_of_lt hpos), ?_⟩,
    by simpa using h2, fun j hj => by simpa using h3 j hj, ?_⟩
  · have h4 := rng.rand_lt_one t
    nlinarith
  · simp only [wswrGo, if_neg (not_le.mpr hpos), hi, if_pos hilt]

/-- Witness for C1 at a concrete input. -/
theorem c1_step_semantics_witness :
    0 < DEFAULT_WEIGHTS.sum ∧ DEFAULT_WEIGHTS.length = PRIZES.length ∧
    (∃ i, i < PRIZES.length ∧
      (0 ≤ rngHalf.rand 0 * DEFAULT_WEIGHTS.sum ∧
        rngHalf.rand 0 * DEFAULT_WEIGHTS.sum < DEFAULT_WEIGHTS.sum) ∧
      rngHalf.rand 0 * DEFAULT_WEIGHTS.sum ≤ (DEFAULT_WEIGHTS.take (i + 1)).sum ∧
      (∀ j, j < i →
        (DEFAULT_WEIGHTS.take (j + 1)).sum < rngHalf.rand 0 * DEFAULT_WEIGHTS.sum) ∧
      wswrGo rngHalf (0 + 1) 0 PRIZES DEFAULT_WEIGHTS =
        (wswrGo rngHalf 0 1 (PRIZES.eraseIdx i) (DEFAULT_WEIGHTS.eraseIdx i)).map
          (fun res => PRIZES.getD i "" :: res)) :=
  ⟨by norm_num [DEFAULT_WEIGHTS], rfl,
    c1_step_semantics rngHalf 0 0 PRIZES DEFAULT_WEIGHTS
      (by norm_num [DEFAULT_WEIGHTS]) rfl⟩

/-- C7: whenever the sum of the remaining weights is ≤ 0, the step draws a
uniform index among the remaining categories with `randrange`, removes that
category, and continues; the branch is a defined fallback, not an error —
the loop still returns normally, and at the function level an all-zero (or
otherwise non-positive) weight vector never causes a failure. -/
theorem c7_zero_total_fallback (rng : RNG) (s t : ℕ) (pop : List String)
    (w : List ℚ) (hw : w.sum ≤ 0) (hs : s + 1 ≤ pop.length)
    (hl : w.length = pop.length) :
    rng.range t pop.length < pop.length ∧
    wswrGo rng (s + 1) t pop w =
      (wswrGo rng s (t + 1) (pop.eraseIdx (rng.range t pop.length))
          (w.eraseIdx (rng.range t pop.length))).map
        (fun res => pop.getD (rng.range t pop.length) "" :: res) ∧
    (wswrGo rng (s + 1) t pop w).isSome = true ∧
    isOk (weighted_sample_without_replacement pop w (s + 1) rng t) = true := by
  have hpos : 0 < pop.length := by omega
  obtain ⟨res, hres, -, -⟩ := wswrGo_ok rng (s + 1) t pop w (by omega) hl
  refine ⟨rng.range_lt t pop.length hpos, ?_, ?_, ?_⟩
  · simp only [wswrGo, if_pos hw, if_neg (by omega : ¬ pop.length = 0)]
  · rw [hres]
    rfl
  · simp only [isOk, weighted_sample_without_replacement,
      if_neg (not_lt.mpr (by omega : s + 1 ≤ pop.length)), hres]
    rfl

/-- Witness for C7 at a concrete input. -/
theorem c7_zero_total_fallback_witness :
    ([(0 : ℚ), 0, 0, 0, 0, 0] : List ℚ).sum ≤ 0 ∧ 0 + 1 ≤ PRIZES.length ∧
    ([(0 : ℚ), 0, 0, 0, 0, 0] : List ℚ).length = PRIZES.length ∧
    (rngZero.range 0 PRIZES.length < PRIZES.length ∧
      wswrGo rngZero (0 + 1) 0 PRIZES [0, 0, 0, 0, 0, 0] =
        (wswrGo rngZero 0 (0 + 1) (PRIZES.eraseIdx (rngZero.range 0 PRIZES.length))
            (([(0 : ℚ), 0, 0, 0, 0, 0] : List ℚ).eraseIdx
              (rngZero.range 0 PRIZES.length))).map
          (fun res => PRIZES.getD (rngZero.range 0 PRIZES.length) "" :: res) ∧
      (wswrGo rngZero (0 + 1) 0 PRIZES [0, 0, 0, 0, 0, 0]).isSome = true ∧
      isOk (weighted_sample_without_replacement PRIZES [0, 0, 0, 0, 0, 0]
        (0 + 1) rngZero 0) = true) :=
  ⟨by norm_num, by norm_num [PRIZES], rfl,
    c7_zero_total_fallback rngZero 0 0 PRIZES [0, 0, 0, 0, 0, 0]
      (by norm_num) (by norm_num [PRIZES]) rfl⟩

/-- C2, counterexample: with the valid RNG stream whose `random()` outputs
are exactly `0` (Python's `random()` can return `0.0`), the draw with
weights `[0,0,0,0,0,1]`, `unique = true`, quantity 6 selects the zero-weight
category "photo frame" first — not the weight-1 category "postcard" —
because `r = 0 <= cum = 0` already holds at index 0.  This refutes both the
general "a zero-weight category is never selected while positive weights
remain" and the claimed first element of this concrete draw. -/
theorem c2_counterexample :
    draw_prizes 6 true true (some [0, 0, 0, 0, 0, 1]) rngZero =
      Except.ok ["photo frame", "slogan", "sticker set", "notebook",
        "pin button", "postcard"] ∧
    (["photo frame", "slogan", "sticker set", "notebook", "pin button",
      "postcard"] : List String).head? ≠ some "postcard" :=
  ⟨by
    norm_num [draw_prizes, weighted_sample_without_replacement, wswrGo,
      scanSelect, rngZero, PRIZES],
   by decide⟩

/-- C2, amended: provided every `random()` output of the stream is strictly
positive, a step with positive remaining total weight never selects a
zero-weight category (the scan's strict prefix sums are below `r`); in
particular the draw with weights `[0,0,0,0,0,1]`, `unique = true`,
quantity 6 returns the weight-1 category "postcard" first, followed by the
five zero-weight categories, each appearing exactly once. -/
theorem c2_amended :
    (∀ (w : List ℚ) (r : ℚ) (i : ℕ), 0 < r → scanSelect w r 0 = some i →
      0 < w.getD i 0) ∧
    (∀ rng : RNG, (∀ t, 0 < rng.rand t) →
      draw_prizes 6 true true (some [0, 0, 0, 0, 0, 1]) rng =
        Except.ok (resultOf (draw_prizes 6 true true (some [0, 0, 0, 0, 0, 1]) rng)) ∧
      (resultOf (draw_prizes 6 true true (some [0, 0, 0, 0, 0, 1]) rng)).head? =
        some "postcard" ∧
      List.Perm (resultOf (draw_prizes 6 true true (some [0, 0, 0, 0, 0, 1]) rng))
        PRIZES) := by
  constructor
  · intro w r i hr hsel
    obtain ⟨h1, h2, h3⟩ := (scanSelect_eq_some_iff w r 0 i).mp hsel
    have hgetD : w.getD i 0 = w[i] := by
      rw [List.getD_eq_getElem?_getD, List.getElem?_eq_getElem h1]
      rfl
    have hstep : (w.take (i + 1)).sum = (w.take i).sum + w.getD i 0 := by
      rw [List.take_succ, List.getElem?_eq_getElem h1, hgetD, List.sum_append]
      simp
    cases i with
    | zero =>
      simp only [List.take_zero, List.sum_nil, zero_add] at hstep
      rw [hstep] at h2
      simp only [zero_add] at h2
      exact lt_of_lt_of_le hr h2
    | succ i =>
      have hprev := h3 i (Nat.lt_succ_self i)
      simp only [zero_add] at h2 hprev
      rw [hstep] at h2
      nlinarith
  · intro rng hr
    -- step 1 selects index 5 ("postcard")
    have hsel : scanSelect [(0 : ℚ), 0, 0, 0, 0, 1] (rng.rand 0) 0 = some 5 := by
      refine (scanSelect_eq_some_iff _ _ _ 5).mpr ⟨by norm_num, ?_, ?_⟩
      · have := rng.rand_lt_one 0
        norm_num
        linarith
      · intro j hj
        have h0 := hr 0
        interval_cases j <;> (norm_num; exact h0)
    obtain ⟨res, hres, hlen, hsub⟩ := wswrGo_ok rng 5 1
      ["photo frame", "slogan", "sticker set", "notebook", "pin button"]
      [0, 0, 0, 0, 0] (by norm_num) (by norm_num)
    have hperm : List.Perm res
        ["photo frame", "slogan", "sticker set", "notebook", "pin button"] :=
      hsub.perm_of_length_le (by rw [hlen]; norm_num)
    have hstep1 : wswrGo rng (5 + 1) 0 PRIZES [0, 0, 0, 0, 0, 1] =
        some ("postcard" :: res) := by
      have hsum : List.sum [(0 : ℚ), 0, 0, 0, 0, 1] = 1 := by norm_num
      have hsel' : scanSelect [(0 : ℚ), 0, 0, 0, 0, 1]
          (rng.rand 0 * List.sum [(0 : ℚ), 0, 0, 0, 0, 1]) 0 = some 5 := by
        rw [hsum, mul_one]
        exact hsel
      rw [wswrGo_select_step rng 5 0 PRIZES [0, 0, 0, 0, 0, 1] 5
        (by norm_num) hsel' (by norm_num [PRIZES])]
      have he1 : PRIZES.eraseIdx 5 =
          ["photo frame", "slogan", "sticker set", "notebook", "pin button"] := rfl
      have he2 : ([(0 : ℚ), 0, 0, 0, 0, 1] : List ℚ).eraseIdx 5 =
          [0, 0, 0, 0, 0] := rfl
      rw [he1, he2, hres]
      rfl
    have hkey : draw_prizes 6 true true (some [0, 0, 0, 0, 0, 1]) rng =
        Except.ok ("postcard" :: res) := by
      have hstep1' : wswrGo rng (Int.toNat 6) 0
          ["photo frame", "slogan", "sticker set", "notebook", "pin button",
            "postcard"] [0, 0, 0, 0, 0, 1] =
          some ("postcard" :: res) := hstep1
      norm_num [draw_prizes, weighted_sample_without_replacement, PRIZES,
        hstep1']
    rw [hkey]
    refine ⟨rfl, rfl, ?_⟩
    show List.Perm ("postcard" :: res) PRIZES
    have h2 : List.Perm
        ("postcard" :: ["photo frame", "slogan", "sticker set", "notebook",
          "pin button"]) PRIZES := by
      have h3 := (List.perm_append_singleton "postcard"
        ["photo frame", "slogan", "sticker set", "notebook", "pin button"]).symm
      simpa [PRIZES] using h3
    exact (hperm.cons "postcard").trans h2

/-- Witness for the amended C2 at a concrete RNG. -/
theorem c2_amended_witness :
    (∀ t, 0 < rngHalf.rand t) ∧
    (draw_prizes 6 true true (some [0, 0, 0, 0, 0, 1]) rngHalf =
      Except.ok (resultOf (draw_prizes 6 true true (some [0, 0, 0, 0, 0, 1]) rngHalf)) ∧
    (resultOf (draw_prizes 6 true true (some [0, 0, 0, 0, 0, 1]) rngHalf)).head? =
      some "postcard" ∧
    List.Perm (resultOf (draw_prizes 6 true true (some [0, 0, 0, 0, 0, 1]) rngHalf))
      PRIZES) :=
  ⟨fun t => by norm_num [rngHalf],
    c2_amended.2 rngHalf (fun t => by norm_num [rngHalf])⟩

/-- C3, counterexample: quantity 1 ≥ 1, a supplied 6-element weights list,
and `unique = false` violate none of the claim's three error conditions, yet
the draw raises: with an all-zero weights list in replacement mode,
`random.choices` raises `ValueError("Total of weights must be greater than
zero")` (CPython ≥ 3.9, and the library documentation states that a
`ValueError` is raised if all weights are zero).  So the "returns normally
for every other input" direction of the claim fails. -/
theorem c3_counterexample :
    (1 : ℤ) ≥ 1 ∧ ([(0 : ℚ), 0, 0, 0, 0, 0] : List ℚ).length = 6 ∧
    draw_prizes 1 false true (some [0, 0, 0, 0, 0, 0]) rngZero =
      Except.error "Total of weights must be greater than zero" :=
  ⟨by norm_num, rfl, by
    norm_num [draw_prizes, choices, accumulate, rngZero, PRIZES]⟩

/-- C3, amended: `draw_prizes` raises a `ValueError` if and only if
`quantity < 1`, or the supplied weights list does not have length 6, or
`unique` with `quantity > 6`, or — the case the original claim misses —
replacement mode with tiered weights whose total is not positive (the
`random.choices` zero-total failure).  For every other input it returns
normally. -/
theorem c3_amended (q : ℤ) (u ti : Bool) (w : List ℚ) (rng : RNG) :
    isOk (draw_prizes q u ti (some w) rng) = true ↔
      (1 ≤ q ∧ w.length = 6 ∧ (u = true → q ≤ 6) ∧
        (u = false → ti = true → 0 < w.sum)) := by
  have hPl : PRIZES.length = 6 := rfl
  by_cases hq : q < 1
  · have hdp : draw_prizes q u ti (some w) rng =
        Except.error "quantity must be at least 1" := by
      simp only [draw_prizes, if_pos hq]
    rw [hdp]
    constructor
    · intro h
      simp [isOk, Except.toOption] at h
    · rintro ⟨h1, -⟩
      omega
  · by_cases hlen : w.length = 6
    · cases u with
      | false =>
        cases ti with
        | true =>
          have hdp : draw_prizes q false true (some w) rng =
              choices rng 0 PRIZES w q.toNat := by
            simp [draw_prizes, hq, hlen, hPl]
          rw [hdp]
          have hw : w ≠ [] := by
            intro hnil
            rw [hnil] at hlen
            simp at hlen
          by_cases hs : 0 < w.sum
          · rw [choices_ok rng 0 PRIZES w q.toNat (by rw [hPl]; exact hlen) hw hs]
            constructor
            · intro _
              exact ⟨by omega, hlen, by simp, fun _ _ => hs⟩
            · intro _
              rfl
          · have herr : choices rng 0 PRIZES w q.toNat =
                Except.error "Total of weights must be greater than zero" := by
              simp only [choices, accumulate_getLast? w 0 hw,
                if_neg (by rw [accumulate_length, hPl, hlen]; omega :
                  ¬ (accumulate w 0).length ≠ PRIZES.length),
                if_pos (by simpa using not_lt.mp hs : (0 : ℚ) + w.sum ≤ 0)]
            rw [herr]
            constructor
            · intro h
              simp [isOk, Except.toOption] at h
            · rintro ⟨-, -, -, h4⟩
              exact absurd (h4 rfl rfl) hs
        | false =>
          have hdp : draw_prizes q false false (some w) rng =
              choiceList rng 0 PRIZES q.toNat := by
            simp [draw_prizes, hq, hlen, hPl]
          have hok : choiceList rng 0 PRIZES q.toNat =
              Except.ok ((List.range q.toNat).map fun i =>
                PRIZES.getD (rng.range (0 + i) PRIZES.length) "") := by
            simp [choiceList, hPl]
          rw [hdp, hok]
          constructor
          · intro _
            exact ⟨by omega, hlen, by simp, by simp⟩
          · intro _
            rfl
      | true =>
        by_cases hq6 : q > 6
        · have hdp : draw_prizes q true ti (some w) rng =
              Except.error "quantity must be <= 6 when drawing unique prizes" := by
            simp [draw_prizes, hq, hlen, hPl, hq6]
          rw [hdp]
          constructor
          · intro h
            simp [isOk, Except.toOption] at h
          · rintro ⟨-, -, h3, -⟩
            exact absurd (h3 rfl) (by omega)
        · cases ti with
          | true =>
            have hdp : draw_prizes q true true (some w) rng =
                weighted_sample_without_replacement PRIZES w q.toNat rng 0 := by
              simp [draw_prizes, hq, hlen, hPl, hq6]
            obtain ⟨res, hres, -, -⟩ := wswr_ok PRIZES w q.toNat rng 0
              (by rw [hPl]; omega) (by rw [hPl]; exact hlen)
            rw [hdp, hres]
            constructor
            · intro _
              exact ⟨by omega, hlen, fun _ => by omega, by simp⟩
            · intro _
              rfl
          | false =>
            have hdp : draw_prizes q true false (some w) rng =
                sample rng 0 PRIZES q.toNat := by
              simp [draw_prizes, hq, hlen, hPl, hq6]
            have hok : sample rng 0 PRIZES q.toNat =
                Except.ok (sampleLoop rng q.toNat 0 PRIZES.length PRIZES) := by
              simp only [sample, if_neg (by rw [hPl]; omega :
                ¬ q.toNat > PRIZES.length)]
            rw [hdp, hok]
            constructor
            · intro _
              exact ⟨by omega, hlen, fun _ => by omega, by simp⟩
            · intro _
              rfl
    · have hdp : draw_prizes q u ti (some w) rng =
          Except.error "weights length must match number of prizes" := by
        simp [draw_prizes, hq, hPl, hlen]
      rw [hdp]
      constructor
      · intro h
        simp [isOk, Except.toOption] at h
      · rintro ⟨-, h2, -⟩
        exact absurd h2 hlen

/-- C4: for every quantity in `[1, 6]`, every 6-element weights list, and
both tiered values, the unique (without replacement) draw returns normally
with a result of length exactly `quantity` whose entries are pairwise
distinct. -/
theorem c4_unique_distinct (q : ℤ) (ti : Bool) (w : List ℚ) (rng : RNG)
    (hq1 : 1 ≤ q) (hq6 : q ≤ 6) (hw : w.length = 6) :
    isOk (draw_prizes q true ti (some w) rng) = true ∧
    (resultOf (draw_prizes q true ti (some w) rng)).length = q.toNat ∧
    (resultOf (draw_prizes q true ti (some w) rng)).Nodup := by
  have hPl : PRIZES.length = 6 := rfl
  have hq : ¬ q < 1 := by omega
  have hq6' : ¬ q > 6 := by omega
  cases ti with
  | true =>
    have hdp : draw_prizes q true true (some w) rng =
        weighted_sample_without_replacement PRIZES w q.toNat rng 0 := by
      simp [draw_prizes, hq, hw, hPl, hq6']
    obtain ⟨res, hres, hlen, hsub⟩ := wswr_ok PRIZES w q.toNat rng 0
      (by rw [hPl]; omega) (by rw [hPl]; exact hw)
    rw [hdp, hres]
    exact ⟨rfl, by simp [resultOf, Except.toOption, hlen],
      by simpa [resultOf, Except.toOption] using nodup_of_subperm hsub PRIZES_nodup⟩
  | false =>
    have hdp : draw_prizes q true false (some w) rng =
        sample rng 0 PRIZES q.toNat := by
      simp [draw_prizes, hq, hw, hPl, hq6']
    have hok : sample rng 0 PRIZES q.toNat =
        Except.ok (sampleLoop rng q.toNat 0 PRIZES.length PRIZES) := by
      simp only [sample, if_neg (by rw [hPl]; omega : ¬ q.toNat > PRIZES.length)]
    have hsub := sampleLoop_subperm rng q.toNat 0 PRIZES.length PRIZES
      (by rw [hPl]; omega) (le_refl _)
    rw [List.take_length] at hsub
    rw [hdp, hok]
    exact ⟨rfl, by simp [resultOf, Except.toOption, sampleLoop_length],
      by simpa [resultOf, Except.toOption] using nodup_of_subperm hsub PRIZES_nodup⟩

/-- Witness for C4 at a concrete input. -/
theorem c4_unique_distinct_witness :
    (1 : ℤ) ≤ 6 ∧ (6 : ℤ) ≤ 6 ∧ ([(1 : ℚ), 1, 1, 1, 1, 1] : List ℚ).length = 6 ∧
    (isOk (draw_prizes 6 true false (some [1, 1, 1, 1, 1, 1]) rngZero) = true ∧
    (resultOf (draw_prizes 6 true false (some [1, 1, 1, 1, 1, 1]) rngZero)).length =
      (6 : ℤ).toNat ∧
    (resultOf (draw_prizes 6 true false (some [1, 1, 1, 1, 1, 1]) rngZero)).Nodup) :=
  ⟨by norm_num, by norm_num, rfl,
    c4_unique_distinct 6 false [1, 1, 1, 1, 1, 1] rngZero (by norm_num)
      (by norm_num) rfl⟩

/-- C5: for every quantity ≥ 1 and both tiered values, the draw with
replacement (default weights) returns normally with a result of length
exactly `quantity`. -/
theorem c5_replacement_length (q : ℤ) (ti : Bool) (rng : RNG) (hq1 : 1 ≤ q) :
    isOk (draw_prizes q false ti none rng) = true ∧
    (resultOf (draw_prizes q false ti none rng)).length = q.toNat := by
  have hPl : PRIZES.length = 6 := rfl
  have hDl : DEFAULT_WEIGHTS.length = 6 := rfl
  have hq : ¬ q < 1 := by omega
  cases ti with
  | true =>
    have hdp : draw_prizes q false true none rng =
        choices rng 0 PRIZES DEFAULT_WEIGHTS q.toNat := by
      simp [draw_prizes, hq, hPl, hDl]
    rw [hdp, choices_ok rng 0 PRIZES DEFAULT_WEIGHTS q.toNat
      (by rw [hPl]; exact hDl) (by simp [DEFAULT_WEIGHTS])
      (by norm_num [DEFAULT_WEIGHTS])]
    exact ⟨rfl, by simp [resultOf, Except.toOption]⟩
  | false =>
    have hdp : draw_prizes q false false none rng =
        choiceList rng 0 PRIZES q.toNat := by
      simp [draw_prizes, hq, hPl, hDl]
    have hok : choiceList rng 0 PRIZES q.toNat =
        Except.ok ((List.range q.toNat).map fun i =>
          PRIZES.getD (rng.range (0 + i) PRIZES.length) "") := by
      simp [choiceList, hPl]
    rw [hdp, hok]
    exact ⟨rfl, by simp [resultOf, Except.toOption]⟩

/-- Witness for C5 at a concrete input. -/
theorem c5_replacement_length_witness :
    (1 : ℤ) ≤ 3 ∧
    (isOk (draw_prizes 3 false true none rngZero) = true ∧
    (resultOf (draw_prizes 3 false true none rngZero)).length = (3 : ℤ).toNat) :=
  ⟨by norm_num, c5_replacement_length 3 true rngZero (by norm_num)⟩

/-- `rng.choices` only consults `random()` at call indices `t, …, t+k-1`. -/
theorem choices_congr (rng₁ rng₂ : RNG) (t : ℕ) (pop : List String)
    (w : List ℚ) (k : ℕ)
    (h : ∀ j, j < k → rng₁.rand (t + j) = rng₂.rand (t + j)) :
    choices rng₁ t pop w k = choices rng₂ t pop w k := by
  by_cases h1 : (accumulate w 0).length ≠ pop.length
  · simp only [choices, if_pos h1]
  · cases hlast : (accumulate w 0).getLast? with
    | none => simp only [choices, if_neg h1, hlast]
    | some total =>
      by_cases h2 : total ≤ 0
      · simp only [choices, if_neg h1, hlast, if_pos h2]
      · simp only [choices, if_neg h1, hlast, if_neg h2]
        congr 1
        refine List.map_congr_left ?_
        intro i hi
        rw [h i (List.mem_range.mp hi)]

/-- The uniform choice loop only consults `_randbelow` at call indices
`t, …, t+k-1`. -/
theorem choiceList_congr (rng₁ rng₂ : RNG) (t : ℕ) (seq : List String)
    (k : ℕ)
    (h : ∀ j, j < k → ∀ n, rng₁.range (t + j) n = rng₂.range (t + j) n) :
    choiceList rng₁ t seq k = choiceList rng₂ t seq k := by
  by_cases h1 : k ≠ 0 ∧ seq.length = 0
  · simp only [choiceList, if_pos h1]
  · simp only [choiceList, if_neg h1]
    congr 1
    refine List.map_congr_left ?_
    intro i hi
    rw [h i (List.mem_range.mp hi) seq.length]

/-- C6: determinism — the draw is a function of the inputs and of the RNG
stream entries it consumes, which are exactly the first `quantity` call
indices (one RNG call per selection step, or per zero-weight fallback step).
Two RNG streams that agree on those calls — in particular the streams of two
`random.Random(seed)` instances built from the same seed — give identical
results. -/
theorem c6_determinism (q : ℤ) (u ti : Bool) (w : Option (List ℚ))
    (rng₁ rng₂ : RNG)
    (h : ∀ j, j < q.toNat → rng₁.rand j = rng₂.rand j ∧
      ∀ n, rng₁.range j n = rng₂.range j n) :
    draw_prizes q u ti w rng₁ = draw_prizes q u ti w rng₂ := by
  have h0 : ∀ j, j < q.toNat → rng₁.rand (0 + j) = rng₂.rand (0 + j) ∧
      ∀ n, rng₁.range (0 + j) n = rng₂.range (0 + j) n := by
    intro j hj
    simpa using h j hj
  by_cases hq : q < 1
  · simp [draw_prizes, hq]
  · have hwsw : weighted_sample_without_replacement PRIZES
        (w.getD DEFAULT_WEIGHTS) q.toNat rng₁ 0 =
        weighted_sample_without_replacement PRIZES
          (w.getD DEFAULT_WEIGHTS) q.toNat rng₂ 0 := by
      simp only [weighted_sample_without_replacement]
      by_cases hk : q.toNat > PRIZES.length
      · simp [hk]
      · simp only [if_neg hk, wswrGo_congr rng₁ rng₂ q.toNat 0 PRIZES _ h0]
    have hsam : sample rng₁ 0 PRIZES q.toNat = sample rng₂ 0 PRIZES q.toNat := by
      simp only [sample]
      by_cases hk : q.toNat > PRIZES.length
      · simp [hk]
      · simp only [if_neg hk,
          sampleLoop_congr rng₁ rng₂ q.toNat 0 PRIZES.length PRIZES
            (fun j hj n => (h0 j hj).2 n)]
    have hcho := choices_congr rng₁ rng₂ 0 PRIZES (w.getD DEFAULT_WEIGHTS)
      q.toNat (fun j hj => (h0 j hj).1)
    have hchl := choiceList_congr rng₁ rng₂ 0 PRIZES q.toNat
      (fun j hj n => (h0 j hj).2 n)
    simp only [draw_prizes, if_neg hq]
    split_ifs <;>
      first
        | rfl
        | exact hwsw
        | exact hsam
        | exact hcho
        | exact hchl

/-- Witness for C6 at a concrete input. -/
theorem c6_determinism_witness :
    (∀ j, j < (5 : ℤ).toNat → rngZero.rand j = rngZero.rand j ∧
      ∀ n, rngZero.range j n = rngZero.range j n) ∧
    draw_prizes 5 false true none rngZero = draw_prizes 5 false true none rngZero :=
  ⟨fun j _ => ⟨rfl, fun n => rfl⟩,
    c6_determinism 5 false true none rngZero rngZero
      (fun j _ => ⟨rfl, fun n => rfl⟩)⟩

/-- C8: exit-code contract of `main` — exit code 0 on success, printing one
1-indexed line per drawn prize followed by a summary listing exactly the
categories with count > 0 in the fixed category order; exit code 1 when the
interactively entered quantity cannot be parsed as an integer; exit code 2
on a validation error, printing `Error: <message>` to the error stream with
no partial draw output. -/
theorem c8_exit_codes (u ti : Bool) (rng : RNG) :
    (main none u ti none rng =
      ⟨1, [], ["Invalid input. Please enter a positive integer for quantity."]⟩) ∧
    (∀ (aq pin : Option ℤ) (q : ℤ) (e : String),
      (aq = some q ∨ (aq = none ∧ pin = some q)) →
      draw_prizes q u ti none rng = Except.error e →
      main aq u ti pin rng = ⟨2, [], ["Error: " ++ e]⟩) ∧
    (∀ (aq pin : Option ℤ) (q : ℤ) (prizes : List String),
      (aq = some q ∨ (aq = none ∧ pin = some q)) →
      draw_prizes q u ti none rng = Except.ok prizes →
      main aq u ti pin rng =
        ⟨0,
          ("\nYou bought: " ++ toString q ++
              " prize(s). Here are your randomized prizes:\n") ::
            ((List.range prizes.length).map
              (fun i => " " ++ toString (i + 1) ++ ". " ++ prizes.getD i "") ++
            "\nSummary:" ::
              (PRIZES.filter fun p => 0 < prizes.count p).map
                (fun p => " - " ++ p ++ ": " ++ toString (prizes.count p))),
          []⟩) := by
  refine ⟨rfl, ?_, ?_⟩
  · rintro aq pin q e (rfl | ⟨rfl, rfl⟩) hdraw <;>
      simp [main, mainDraw, hdraw]
  · rintro aq pin q prizes (rfl | ⟨rfl, rfl⟩) hdraw <;>
      simp [main, mainDraw, hdraw, numberedLines_eq, summaryLines_eq]

/-- Witness for C8 at a concrete input (validation-error case). -/
theorem c8_exit_codes_witness :
    main (some 0) false false none rngZero =
      ⟨2, [], ["Error: quantity must be at least 1"]⟩ :=
  (c8_exit_codes false false rngZero).2.1 (some 0) none 0
    "quantity must be at least 1" (Or.inl rfl) (by norm_num [draw_prizes])

/-- C9: the sampler is effect-free — `weighted_sample_without_replacement`
works on copies of the caller's lists and returns them unchanged, and
`draw_prizes` reads the module constants `PRIZES` / `DEFAULT_WEIGHTS` purely
by value and leaves them unchanged; neither performs I/O in the embedding
(their types are pure), so the only observable effect is the returned
sequence. -/
theorem c9_sampler_pure (population : List String) (weights : List ℚ)
    (k : ℕ) (rng : RNG) (t : ℕ) (q : ℤ) (u ti : Bool)
    (cw : Option (List ℚ)) (prizes : List String) (dw : List ℚ) :
    (wswrWithCallerLists population weights k rng t).2 = (population, weights) ∧
    (draw_prizesWithGlobals prizes dw q u ti cw rng).2 = (prizes, dw) ∧
    (draw_prizesWithGlobals PRIZES DEFAULT_WEIGHTS q u ti cw rng).1 =
      draw_prizes q u ti cw rng :=
  ⟨rfl, rfl, rfl⟩

/-- C10: in all four mode combinations, every element of a successful draw
is one of the six fixed category labels. -/
theorem c10_membership (q : ℤ) (u ti : Bool) (w : Option (List ℚ))
    (rng : RNG) (res : List String)
    (h : draw_prizes q u ti w rng = Except.ok res) :
    ∀ x ∈ res, x ∈ PRIZES := by
  have hPl : PRIZES.length = 6 := rfl
  by_cases hq : q < 1
  · simp [draw_prizes, hq] at h
  · by_cases hlen : (w.getD DEFAULT_WEIGHTS).length = 6
    · cases u with
      | true =>
        by_cases hq6 : q > 6
        · have hdp : draw_prizes q true ti w rng =
              Except.error "quantity must be <= 6 when drawing unique prizes" := by
            simp [draw_prizes, hq, hlen, hPl, hq6]
          rw [hdp] at h
          exact absurd h (by simp)
        · have hk : q.toNat ≤ PRIZES.length := by
            rw [hPl]
            omega
          cases ti with
          | true =>
            have hdp : draw_prizes q true true w rng =
                weighted_sample_without_replacement PRIZES
                  (w.getD DEFAULT_WEIGHTS) q.toNat rng 0 := by
              simp [draw_prizes, hq, hlen, hPl, hq6]
            rw [hdp] at h
            obtain ⟨res', hres', -, hsub⟩ := wswr_ok PRIZES
              (w.getD DEFAULT_WEIGHTS) q.toNat rng 0 hk (by rw [hPl]; exact hlen)
            rw [hres'] at h
            obtain rfl : res' = res := Except.ok.inj h
            exact fun x hx => hsub.subset hx
          | false =>
            have hdp : draw_prizes q true false w rng =
                sample rng 0 PRIZES q.toNat := by
              simp [draw_prizes, hq, hlen, hPl, hq6]
            rw [hdp] at h
            simp only [sample, if_neg (not_lt.mpr hk)] at h
            obtain rfl : sampleLoop rng q.toNat 0 PRIZES.length PRIZES = res :=
              Except.ok.inj h
            have hsub := sampleLoop_subperm rng q.toNat 0 PRIZES.length PRIZES
              hk (le_refl _)
            rw [List.take_length] at hsub
            exact fun x hx => hsub.subset hx
      | false =>
        cases ti with
        | true =>
          have hdp : draw_prizes q false true w rng =
              choices rng 0 PRIZES (w.getD DEFAULT_WEIGHTS) q.toNat := by
            simp [draw_prizes, hq, hlen, hPl]
          rw [hdp] at h
          have hw : w.getD DEFAULT_WEIGHTS ≠ [] := by
            intro hnil
            rw [hnil] at hlen
            simp at hlen
          by_cases hs : 0 < (w.getD DEFAULT_WEIGHTS).sum
          · rw [choices_ok rng 0 PRIZES _ q.toNat (by rw [hPl]; exact hlen)
              hw hs] at h
            obtain rfl := Except.ok.inj h
            intro x hx
            obtain ⟨i, -, rfl⟩ := List.mem_map.mp hx
            have hb := bisect_le (accumulate (w.getD DEFAULT_WEIGHTS) 0)
              (rng.rand (0 + i) * (0 + (w.getD DEFAULT_WEIGHTS).sum))
              (PRIZES.length - 1)
            exact getD_mem "" (by omega)
          · have herr : choices rng 0 PRIZES (w.getD DEFAULT_WEIGHTS) q.toNat =
                Except.error "Total of weights must be greater than zero" := by
              simp only [choices, accumulate_getLast? _ 0 hw,
                if_neg (by rw [accumulate_length, hPl, hlen]; omega :
                  ¬ (accumulate (w.getD DEFAULT_WEIGHTS) 0).length ≠ PRIZES.length),
                if_pos (by simpa using not_lt.mp hs :
                  (0 : ℚ) + (w.getD DEFAULT_WEIGHTS).sum ≤ 0)]
            rw [herr] at h
            exact absurd h (by simp)
        | false =>
          have hdp : draw_prizes q false false w rng =
              choiceList rng 0 PRIZES q.toNat := by
            simp [draw_prizes, hq, hlen, hPl]
          rw [hdp] at h
          have hok : choiceList rng 0 PRIZES q.toNat =
              Except.ok ((List.range q.toNat).map fun i =>
                PRIZES.getD (rng.range (0 + i) PRIZES.length) "") := by
            simp [choiceList, hPl]
          rw [hok] at h
          obtain rfl := Except.ok.inj h
          intro x hx
          obtain ⟨i, -, rfl⟩ := List.mem_map.mp hx
          exact getD_mem "" (rng.range_lt (0 + i) PRIZES.length (by rw [hPl]; omega))
    · have hdp : draw_prizes q u ti w rng =
          Except.error "weights length must match number of prizes" := by
        simp [draw_prizes, hq, hPl, hlen]
      rw [hdp] at h
      exact absurd h (by simp)

/-- Witness for C10 at a concrete input. -/
theorem c10_membership_witness :
    draw_prizes 1 false false none rngZero = Except.ok ["photo frame"] ∧
    ∀ x ∈ (["photo frame"] : List String), x ∈ PRIZES :=
  ⟨by norm_num [draw_prizes, choiceList, rngZero, PRIZES, DEFAULT_WEIGHTS, List.range_succ],
    c10_membership 1 false false none rngZero ["photo frame"]
      (by norm_num [draw_prizes, choiceList, rngZero, PRIZES, DEFAULT_WEIGHTS, List.range_succ])⟩

end LuckyDraw
